import Mathlib

/-
Verification of the JSON-to-CSV conversion library (flattener, validator,
schema unifier / CSV renderer, delimiter detection) against its
natural-language specification.  The repository ships only tests and
examples for the core modules, so the core operations are modelled
directly from the specification text.
-/

set_option maxHeartbeats 1000000

/-- Modelled from the spec: the JSON Value data model of section 3 (the
repository's core modules `arcolabutils.utils` / `JSON2CSVLIB` are not in
the source tree).  A tagged union of Null, Boolean, Number, String,
Object (insertion-ordered mapping) and Array. -/
inductive Json where
  | null : Json
  | bool (b : Bool) : Json
  | num (n : Int) : Json
  | str (s : String) : Json
  | arr (xs : List Json) : Json
  | obj (kvs : List (String × Json)) : Json

/-- A flattened record / dictionary: an insertion-ordered association list. -/
abbrev Dict := List (String × Json)

/-- Whether a JSON value is an Object. -/
def Json.isObj : Json → Bool
  | .obj _ => true
  | _ => false

/-- Whether a JSON value is a non-composite cell value
(Null, Boolean, Number or String). -/
def Json.isScalar : Json → Bool
  | .obj _ => false
  | .arr _ => false
  | _ => true

/-- Modelled from the spec: deterministic JSON textual serialization of a
value, used for arrays (always opaque) and for composites cut off by the
depth limit.  String escaping inside serialized strings is not modelled;
no claim depends on it. -/
def serialize : Json → String
  | .null => "null"
  | .bool true => "true"
  | .bool false => "false"
  | .num n => toString n
  | .str s => "\"" ++ s ++ "\""
  | .arr xs => "[" ++ String.intercalate ", " (xs.attach.map (fun x => serialize x.1)) ++ "]"
  | .obj kvs =>
      "\x7b" ++
        String.intercalate ", "
          (kvs.attach.map (fun q => "\"" ++ q.1.1 ++ "\": " ++ serialize q.1.2)) ++ "\x7d"
termination_by j => sizeOf j
decreasing_by
  · obtain ⟨x, hx⟩ := x
    have := List.sizeOf_lt_of_mem hx
    simp at *
    omega
  · obtain ⟨⟨k, v⟩, hq⟩ := q
    have := List.sizeOf_lt_of_mem hq
    simp at *
    omega

/-- Python-dict insertion: replace the value in place if the key is
present, otherwise append the binding at the end. -/
def dinsert : Dict → String → Json → Dict
  | [], k, v => [(k, v)]
  | (k0, v0) :: rest, k, v =>
      if k0 = k then (k0, v) :: rest else (k0, v0) :: dinsert rest k v

/-- Build a dictionary by inserting pairs left to right (last-write-wins,
first-occurrence position), i.e. Python's dict(items). -/
def toDictAux (acc : Dict) : List (String × Json) → Dict
  | [] => acc
  | (k, v) :: rest => toDictAux (dinsert acc k v) rest

/-- dict(items). -/
def toDict (ps : List (String × Json)) : Dict := toDictAux [] ps

/-- Dictionary lookup (first matching key). -/
def dlookup : Dict → String → Option Json
  | [], _ => none
  | (k0, v0) :: rest, k => if k0 = k then some v0 else dlookup rest k

/-- The keys of a dictionary, in order. -/
def dkeys (d : Dict) : List String := d.map Prod.fst

/-- Modelled from the spec: the new path for key k under path p
("p + separator + k, or just k at the root"). -/
def extKey (sep : String) (p : Option String) (k : String) : String :=
  match p with
  | none => k
  | some q => q ++ sep ++ k

/-- Modelled from the spec: whether the flattener may descend into a
nested object at current depth d (root is depth 0) given the optional
max_depth.  Unset max_depth means unlimited descent; with max_depth = N
the descent boundary is fixed by the contract test
flatten(level1/level2/level3/level4, max_depth=2) = mapping containing
the key "level1.level2". -/
def canDescend (md : Option Nat) (d : Nat) : Bool :=
  match md with
  | none => true
  | some m => d + 1 < m

/-- The cell bound for a value that is not descended into: composites are
serialized to their JSON textual form, scalars are kept as they are. -/
def cellOf (v : Json) : Json :=
  match v with
  | .obj kvs => .str (serialize (.obj kvs))
  | .arr xs => .str (serialize (.arr xs))
  | v => v

/-- Modelled from the spec: the recursive step of the Flattener (4.1)
over an object's key/value pairs.  Objects are recursed into while the
depth limit allows and serialized otherwise; arrays are always opaque
single bindings; scalars are bound directly.  Output order is the
depth-first left-to-right traversal order. -/
def flattenList (sep : String) (md : Option Nat) :
    List (String × Json) → Option String → Nat → List (String × Json)
  | [], _, _ => []
  | (k, Json.obj kvs2) :: rest, p, d =>
      (if canDescend md d then
        flattenList sep md kvs2 (some (extKey sep p k)) (d + 1)
      else
        [(extKey sep p k, Json.str (serialize (Json.obj kvs2)))]) ++
      flattenList sep md rest p d
  | (k, Json.arr xs) :: rest, p, d =>
      (extKey sep p k, Json.str (serialize (Json.arr xs))) :: flattenList sep md rest p d
  | (k, v) :: rest, p, d =>
      (extKey sep p k, v) :: flattenList sep md rest p d
termination_by l _ _ => sizeOf l
decreasing_by
  all_goals simp
  omega

/-- Modelled from the spec: flatten_json (Flattener 4.1).  Defined for
object inputs (a non-object top level is a TypeError, modelled as none);
the produced pairs are collected into a dictionary exactly as Python's
dict construction does (last-write-wins on path collisions). -/
def flatten_json (sep : String) (md : Option Nat) (j : Json) : Option Dict :=
  match j with
  | .obj kvs => some (toDict (flattenList sep md kvs none 0))
  | _ => none

/-- Joining a chain of keys with the separator. -/
def joinPath (sep : String) : List String → String
  | [] => ""
  | [k] => k
  | k :: ks => k ++ sep ++ joinPath sep ks

/-- The chain of keys ks leads from the object to the scalar leaf v. -/
inductive LeafAt : List (String × Json) → List String → Json → Prop where
  | here {kvs : List (String × Json)} {k : String} {v : Json} :
      (k, v) ∈ kvs → v.isScalar = true → LeafAt kvs [k] v
  | deeper {kvs kvs2 : List (String × Json)} {k : String} {ks : List String} {v : Json} :
      (k, Json.obj kvs2) ∈ kvs → LeafAt kvs2 ks v → LeafAt kvs (k :: ks) v

example : flatten_json "." none (.obj [("user", .obj [("name", .str "John"), ("age", .num 30)])]) =
    some [("user.name", .str "John"), ("user.age", .num 30)] := by
  simp [flatten_json, flattenList, canDescend, extKey, serialize, toDict, toDictAux, dinsert]

example : flatten_json "_" none (.obj [("a", .obj [("b", .num 1)])]) =
    some [("a_b", .num 1)] := by
  simp [flatten_json, flattenList, canDescend, extKey, serialize, toDict, toDictAux, dinsert]

example : flatten_json "." (some 2)
    (.obj [("level1", .obj [("level2", .obj [("level3", .obj [("level4", .str "deep")])])])]) =
    some [("level1.level2",
      .str "\x7b\"level3\": \x7b\"level4\": \"deep\"\x7d\x7d")] := by
  simp [flatten_json, flattenList, canDescend, extKey, serialize, toDict, toDictAux, dinsert]
  rfl

example : flatten_json "." none
    (.obj [("user", .obj [("name", .str "John"), ("hobbies", .arr [.str "reading", .str "gaming"])])]) =
    some [("user.name", .str "John"), ("user.hobbies", .str "[\"reading\", \"gaming\"]")] := by
  simp [flatten_json, flattenList, canDescend, extKey, serialize, toDict, toDictAux, dinsert]
  rfl

/-- Whether the first character list starts the second. -/
def isPrefixChars : List Char → List Char → Bool
  | [], _ => true
  | _ :: _, [] => false
  | a :: as, b :: bs => a = b && isPrefixChars as bs

/-- Whether the pattern occurs somewhere in the haystack. -/
def containsChars (hay pat : List Char) : Bool :=
  match hay with
  | [] => isPrefixChars pat []
  | _ :: rest => isPrefixChars pat hay || containsChars rest pat

/-- A message mentions a phrase when the phrase occurs in it as a
contiguous substring. -/
def mentions (msg phrase : String) : Bool := containsChars msg.data phrase.data

/-- Top-level keys of a record (empty for non-objects). -/
def objKeys : Json → List String
  | .obj kvs => kvs.map Prod.fst
  | _ => []

/-- The pairs of an object record (empty for non-objects). -/
def objPairs : Json → Dict
  | .obj kvs => kvs
  | _ => []

/-- Set inclusion of key lists. -/
def keysSubset (a b : List String) : Bool := a.all (fun k => b.contains k)

/-- Set equality of key lists (Python set(keys) comparison). -/
def sameKeySet (a b : List String) : Bool := keysSubset a b && keysSubset b a

/-- Modelled from the spec: DataValidator.validate_data (4.2), whose
implementation module is not in the source tree.  Rule order: shape
(must be a list), non-emptiness, element type (all dictionaries), and in
strict mode equality of every record's top-level key set with the first
record's. -/
def validate_data (data : Json) (strict : Bool) : Except String Bool :=
  match data with
  | .arr items =>
      if items.isEmpty then .error "Data cannot be empty"
      else if items.any (fun x => !x.isObj) then
        .error "All items in data must be dictionaries"
      else if strict then
        match items with
        | [] => .ok true
        | first :: rest =>
            if rest.any (fun r => !sameKeySet (objKeys r) (objKeys first)) then
              .error "Records have different keys"
            else .ok true
      else .ok true
  | _ => .error "Data must be a list of dictionaries"

/-- Modelled from the spec: the configuration surface of the converter
(section 6), one explicit structure with the options the core consumes. -/
structure ConvertOptions where
  flatten_nested : Bool
  separator : String
  max_depth : Option Nat
  delimiter : Char
  include_index : Bool
  custom_headers : Option (List String)
  strict_mode : Bool
  validateOpt : Bool

/-- The documented defaults of section 6. -/
def defaultOptions : ConvertOptions :=
  ⟨false, ".", none, ',', false, none, false, true⟩

/-- Modelled from the spec: callers normalize a single mapping to a
one-element sequence before validation. -/
def normalizeData : Json → Json
  | .obj kvs => .arr [.obj kvs]
  | d => d

/-- Cell text rendering (4.3 step 4): Null is empty, Booleans use the
True/False text form, Numbers their canonical decimal text, Strings are
kept as they are; a composite left in a cell is serialized. -/
def cellText : Json → String
  | .null => ""
  | .bool true => "True"
  | .bool false => "False"
  | .num n => toString n
  | .str s => s
  | .arr xs => serialize (.arr xs)
  | .obj kvs => serialize (.obj kvs)

/-- Whether a CSV field must be quoted: it contains the delimiter, a
double-quote or a newline. -/
def needsQuote (delim : Char) (cs : List Char) : Bool :=
  cs.any (fun c => c = delim || c = '"' || c = '\n')

/-- Double every double-quote in a field body. -/
def doubleQuotes : List Char → List Char
  | [] => []
  | c :: rest =>
      if c = '"' then '"' :: '"' :: doubleQuotes rest
      else c :: doubleQuotes rest

/-- Modelled from the spec: standard CSV quoting of one field (4.3 step
5): a field that needs quoting is wrapped in double-quotes with embedded
double-quotes doubled, any other field is emitted as-is. -/
def escChars (delim : Char) (cs : List Char) : List Char :=
  if needsQuote delim cs then '"' :: (doubleQuotes cs ++ ['"']) else cs

/-- CSV quoting at the string level. -/
def escapeField (delim : Char) (s : String) : String := ⟨escChars delim s.data⟩

/-- The characters of one CSV line: the escaped fields joined by the
delimiter. -/
def lineChars (delim : Char) : List (List Char) → List Char
  | [] => []
  | [c] => escChars delim c
  | c :: cs => escChars delim c ++ delim :: lineChars delim cs

/-- One rendered CSV line. -/
def renderLine (delim : Char) (cells : List String) : String :=
  ⟨lineChars delim (cells.map String.data)⟩

/-- Append a path to the header accumulator unless already present. -/
def insertNew (acc : List String) (k : String) : List String :=
  if k ∈ acc then acc else acc ++ [k]

/-- Modelled from the spec: the Header computation (4.3 step 2), the
ordered union of all paths across the per-record flattened records in
first-seen order. -/
def unionHeaders (frs : List Dict) : List String :=
  frs.foldl (fun acc fr => (dkeys fr).foldl insertNew acc) []

/-- First-occurrence deduplication keeping order, the specification-side
description of first-seen order ("record-major, then per-record key
order" once the key lists are concatenated). -/
def dedupFirstAux (seen : List String) : List String → List String
  | [] => []
  | x :: xs =>
      if x ∈ seen then dedupFirstAux seen xs
      else x :: dedupFirstAux (x :: seen) xs

/-- Modelled from the spec: the per-record Flattened Record (4.3 step 1):
with flatten_nested the Flattener runs on the record, otherwise the
record's own top-level keys are kept, composite values serialized. -/
def recordFlat (o : ConvertOptions) (kvs : Dict) : Dict :=
  if o.flatten_nested then toDict (flattenList o.separator o.max_depth kvs none 0)
  else kvs.map (fun q => (q.1, cellOf q.2))

/-- The cells of one row aligned to the header: a path present in the
record renders its cell text, a missing path renders the empty string. -/
def rowCells (headers : List String) (fr : Dict) : List String :=
  headers.map (fun h =>
    match dlookup fr h with
    | some v => cellText v
    | none => "")

/-- Pair each element with its 0-based position starting at i. -/
def withIdx (i : Nat) : List Dict → List (Nat × Dict)
  | [] => []
  | x :: rest => (i, x) :: withIdx (i + 1) rest

/-- Modelled from the spec: the rendered CSV lines of a batch (4.3):
header line first, then one row per record in input order, each row
aligned to the computed (or custom) header, with the optional index
column prepended. -/
def convertLines (o : ConvertOptions) (records : List Dict) : List String :=
  let frs := records.map (recordFlat o)
  let base := match o.custom_headers with
    | some hs => hs
    | none => unionHeaders frs
  let headers := if o.include_index then "index" :: base else base
  let rows := (withIdx 0 frs).map (fun q =>
    (if o.include_index then [toString q.1] else []) ++ rowCells base q.2)
  renderLine o.delimiter headers :: rows.map (renderLine o.delimiter)

/-- Modelled from the spec: JSONConverter.convert_to_csv, the full
single-batch pipeline: normalize a single mapping to a one-record list,
gate through the Validator when validation is enabled, flatten each
record, unify the header, render rows, and join the lines into CSV
text. -/
def convert_to_csv (o : ConvertOptions) (data : Json) : Except String String :=
  let nd := normalizeData data
  match (if o.validateOpt then validate_data nd o.strict_mode else .ok true) with
  | .error e => .error e
  | .ok _ =>
      match nd with
      | .arr items => .ok (String.intercalate "\n" (convertLines o (items.map objPairs)))
      | _ => .error "Data must be a list of dictionaries"

/-- Modelled from the spec: preview_conversion, the same pipeline
truncated to the first rows records (header computed from the previewed
subset only). -/
def preview_conversion (o : ConvertOptions) (data : Json) (rows : Nat) : Except String String :=
  let nd := normalizeData data
  match (if o.validateOpt then validate_data nd o.strict_mode else .ok true) with
  | .error e => .error e
  | .ok _ =>
      match nd with
      | .arr items => .ok (String.intercalate "\n" (convertLines o ((items.take rows).map objPairs)))
      | _ => .error "Data must be a list of dictionaries"

/-- The first line of a sample text. -/
def firstLine (s : String) : List Char := s.data.takeWhile (fun c => c ≠ '\n')

/-- Keep the candidate with the strictly highest count, first wins ties. -/
def pickBest : Char × Nat → List (Char × Nat) → Char × Nat
  | best, [] => best
  | best, q :: rest => pickBest (if best.2 < q.2 then q else best) rest

/-- Modelled from the spec: detect_delimiter (4.3): count each
candidate's occurrences in the first line of the sample and return the
candidate with the highest count, ties broken by candidate order; an
empty sample returns the default comma. -/
def detect_delimiter (sample : String) (candidates : List Char) : Char :=
  if sample.isEmpty then ','
  else
    match candidates with
    | [] => ','
    | c0 :: rest =>
        let cs := firstLine sample
        (pickBest (c0, cs.count c0) (rest.map (fun c => (c, cs.count c)))).1

/-- A standard permissive CSV field scanner over the characters of one
line: outside quotes the delimiter separates fields and a double-quote
opens a quoted section; inside quotes a doubled double-quote is a
literal double-quote and a single one closes the section. -/
def parseRec (delim : Char) : List Char → Bool → List Char → List String → List String
  | [], _, cur, acc => acc ++ [⟨cur⟩]
  | c :: rest, true, cur, acc =>
      if c = '"' then
        if rest.head? = some '"' then parseRec delim rest.tail true (cur ++ ['"']) acc
        else parseRec delim rest false cur acc
      else parseRec delim rest true (cur ++ [c]) acc
  | c :: rest, false, cur, acc =>
      if c = delim then parseRec delim rest false [] (acc ++ [⟨cur⟩])
      else if c = '"' then parseRec delim rest true cur acc
      else parseRec delim rest false (cur ++ [c]) acc
termination_by l _ _ _ => l.length
decreasing_by
  all_goals simp [List.length_tail]
  omega

/-- Parse one CSV line into its fields with the standard quoting rules. -/
def parseCSVLine (delim : Char) (s : String) : List String :=
  parseRec delim s.data false [] []

/-! Helper lemmas about dictionaries. -/

theorem dinsert_of_not_mem (d : Dict) (k : String) (v : Json) (h : k ∉ dkeys d) :
    dinsert d k v = d ++ [(k, v)] := by
  induction d with
  | nil => rfl
  | cons hd tl ih =>
      obtain ⟨k0, v0⟩ := hd
      simp [dkeys] at h
      have hne : ¬(k0 = k) := fun he => h.1 he.symm
      simp [dinsert, hne]
      exact ih (by simp [dkeys]; exact fun a hb => h.2 a hb)

theorem dkeys_dinsert (d : Dict) (k : String) (v : Json) :
    dkeys (dinsert d k v) = if k ∈ dkeys d then dkeys d else dkeys d ++ [k] := by
  induction d with
  | nil => simp [dinsert, dkeys]
  | cons hd tl ih =>
      obtain ⟨k0, v0⟩ := hd
      by_cases hk : k0 = k
      · subst hk
        simp [dinsert, dkeys]
      · simp [dinsert, hk, dkeys] at ih ⊢
        rw [ih]
        by_cases hmem : k ∈ tl.map Prod.fst
        · simp [hmem, Ne.symm hk]
        · simp [hmem, Ne.symm hk]

theorem mem_dinsert (d : Dict) (k : String) (v : Json) (q : String × Json)
    (h : q ∈ dinsert d k v) : q ∈ d ∨ q = (k, v) := by
  induction d with
  | nil => simp [dinsert] at h; simp [h]
  | cons hd tl ih =>
      obtain ⟨k0, v0⟩ := hd
      by_cases hk : k0 = k
      · subst hk
        simp [dinsert] at h
        rcases h with h | h
        · right; simp [h]
        · left; simp [h]
      · simp [dinsert, hk] at h
        rcases h with h | h
        · left; simp [h]
        · rcases ih h with h2 | h2
          · left; simp [h2]
          · right; exact h2

theorem mem_toDictAux (acc : Dict) (ps : List (String × Json)) (q : String × Json)
    (h : q ∈ toDictAux acc ps) : q ∈ acc ∨ q ∈ ps := by
  induction ps generalizing acc with
  | nil => simp [toDictAux] at h; simp [h]
  | cons hd tl ih =>
      obtain ⟨k, v⟩ := hd
      simp [toDictAux] at h
      rcases ih _ h with h2 | h2
      · rcases mem_dinsert _ _ _ _ h2 with h3 | h3
        · left; exact h3
        · right; simp [h3]
      · right; simp [h2]

theorem dkeys_toDictAux_nodup (acc : Dict) (ps : List (String × Json))
    (h : (dkeys acc).Nodup) : (dkeys (toDictAux acc ps)).Nodup := by
  induction ps generalizing acc with
  | nil => simpa [toDictAux] using h
  | cons hd tl ih =>
      obtain ⟨k, v⟩ := hd
      simp [toDictAux]
      apply ih
      rw [dkeys_dinsert]
      by_cases hmem : k ∈ dkeys acc
      · simp [hmem, h]
      · simp [hmem]
        exact List.Nodup.append h (by simp) (by simp [List.disjoint_singleton, hmem])

theorem toDictAux_eq_append_of_nodup (acc : Dict) (ps : List (String × Json))
    (h : (dkeys acc ++ ps.map Prod.fst).Nodup) : toDictAux acc ps = acc ++ ps := by
  induction ps generalizing acc with
  | nil => simp [toDictAux]
  | cons hd tl ih =>
      obtain ⟨k, v⟩ := hd
      have hk : k ∉ dkeys acc := by
        intro hmem
        rw [List.nodup_append] at h
        exact h.2.2 hmem (by simp)
      rw [toDictAux, dinsert_of_not_mem _ _ _ hk]
      rw [ih (acc ++ [(k, v)]) (by
        have hdk : dkeys (acc ++ [(k, v)]) = dkeys acc ++ [k] := by simp [dkeys]
        rw [hdk, List.append_assoc]
        simpa using h)]
      simp

theorem toDict_eq_self_of_nodup (ps : List (String × Json))
    (h : (ps.map Prod.fst).Nodup) : toDict ps = ps := by
  have := toDictAux_eq_append_of_nodup [] ps (by simpa [dkeys] using h)
  simpa [toDict] using this

theorem dlookup_eq_some_of_mem_nodup (d : Dict) (k : String) (v : Json)
    (hn : (dkeys d).Nodup) (hm : (k, v) ∈ d) : dlookup d k = some v := by
  induction d with
  | nil => simp at hm
  | cons hd tl ih =>
      obtain ⟨k0, v0⟩ := hd
      have hn' : k0 ∉ dkeys tl ∧ (dkeys tl).Nodup := by
        simpa [dkeys, List.nodup_cons] using hn
      rcases List.mem_cons.mp hm with h1 | h1
      · rw [show k = k0 from congrArg Prod.fst h1, show v = v0 from congrArg Prod.snd h1]
        simp [dlookup]
      · have hkmem : k ∈ dkeys tl := by
          simpa [dkeys] using List.mem_map_of_mem Prod.fst h1
        have hk : ¬(k0 = k) := fun he => hn'.1 (he ▸ hkmem)
        simp [dlookup, hk]
        exact ih hn'.2 h1

/-! Helper lemmas about the flattener. -/

theorem flattenList_cons_decomp (sep : String) (md : Option Nat) (hd : String × Json)
    (tl : List (String × Json)) (p : Option String) (d : Nat) :
    ∃ seg, flattenList sep md (hd :: tl) p d = seg ++ flattenList sep md tl p d := by
  obtain ⟨k, v⟩ := hd
  cases v with
  | null => exact ⟨[(extKey sep p k, .null)], by simp [flattenList]⟩
  | bool b => exact ⟨[(extKey sep p k, .bool b)], by simp [flattenList]⟩
  | num n => exact ⟨[(extKey sep p k, .num n)], by simp [flattenList]⟩
  | str s => exact ⟨[(extKey sep p k, .str s)], by simp [flattenList]⟩
  | arr xs => exact ⟨[(extKey sep p k, .str (serialize (.arr xs)))], by simp [flattenList]⟩
  | obj kvs2 =>
      refine ⟨if canDescend md d then flattenList sep md kvs2 (some (extKey sep p k)) (d + 1)
        else [(extKey sep p k, .str (serialize (.obj kvs2)))], ?_⟩
      by_cases h : canDescend md d <;> simp [flattenList, h]

theorem mem_flattenList_tail (sep : String) (md : Option Nat) (hd : String × Json)
    (tl : List (String × Json)) (p : Option String) (d : Nat) (q : String × Json)
    (h : q ∈ flattenList sep md tl p d) : q ∈ flattenList sep md (hd :: tl) p d := by
  obtain ⟨seg, hs⟩ := flattenList_cons_decomp sep md hd tl p d
  rw [hs]
  exact List.mem_append_right seg h

theorem mem_flattenList_scalar (sep : String) (md : Option Nat)
    (kvs : List (String × Json)) (p : Option String) (d : Nat) (k : String) (v : Json)
    (hm : (k, v) ∈ kvs) (hs : v.isScalar = true) :
    (extKey sep p k, v) ∈ flattenList sep md kvs p d := by
  induction kvs with
  | nil => simp at hm
  | cons hd tl ih =>
      rcases List.mem_cons.mp hm with h1 | h1
      · subst h1
        cases v with
        | null => simp [flattenList]
        | bool b => simp [flattenList]
        | num n => simp [flattenList]
        | str s => simp [flattenList]
        | arr xs => simp [Json.isScalar] at hs
        | obj kvs2 => simp [Json.isScalar] at hs
      · exact mem_flattenList_tail sep md hd tl p d _ (ih h1)

theorem mem_flattenList_arr (sep : String) (md : Option Nat)
    (kvs : List (String × Json)) (p : Option String) (d : Nat) (k : String) (xs : List Json)
    (hm : (k, Json.arr xs) ∈ kvs) :
    (extKey sep p k, Json.str (serialize (.arr xs))) ∈ flattenList sep md kvs p d := by
  induction kvs with
  | nil => simp at hm
  | cons hd tl ih =>
      rcases List.mem_cons.mp hm with h1 | h1
      · subst h1
        simp [flattenList]
      · exact mem_flattenList_tail sep md hd tl p d _ (ih h1)

theorem mem_flattenList_deeper (sep : String) (md : Option Nat)
    (kvs kvs2 : List (String × Json)) (p : Option String) (d : Nat) (k : String)
    (q : String × Json) (hm : (k, Json.obj kvs2) ∈ kvs) (hcd : canDescend md d = true)
    (hq : q ∈ flattenList sep md kvs2 (some (extKey sep p k)) (d + 1)) :
    q ∈ flattenList sep md kvs p d := by
  induction kvs with
  | nil => simp at hm
  | cons hd tl ih =>
      rcases List.mem_cons.mp hm with h1 | h1
      · subst h1
        simp [flattenList, hcd]
        left
        exact hq
      · exact mem_flattenList_tail sep md hd tl p d _ (ih h1)

theorem flattenList_cells_scalar (sep : String) (md : Option Nat)
    (kvs : List (String × Json)) (p : Option String) (d : Nat) (q : String × Json)
    (h : q ∈ flattenList sep md kvs p d) : q.2.isScalar = true := by
  induction kvs, p, d using flattenList.induct sep md with
  | case1 p d => simp [flattenList] at h
  | case2 k kvs2 rest p d ih1 ih2 =>
      by_cases hcd : canDescend md d
      · simp [flattenList, hcd] at h
        rcases h with h | h
        · exact ih1 h
        · exact ih2 h
      · simp [flattenList, hcd] at h
        rcases h with h | h
        · rw [h]; rfl
        · exact ih2 h
  | case3 k xs rest p d ih =>
      simp [flattenList] at h
      rcases h with h | h
      · rw [h]; rfl
      · exact ih h
  | case4 k v rest p d hnotobj hnotarr ih =>
      simp [flattenList] at h
      rcases h with h | h
      · rw [h]
        cases v with
        | obj kvs2 => exact (hnotobj kvs2 rfl).elim
        | arr xs => exact (hnotarr xs rfl).elim
        | null => rfl
        | bool b => rfl
        | num n => rfl
        | str s => rfl
      · exact ih h

theorem extKey_extKey (sep : String) (p : Option String) (k r : String) :
    extKey sep (some (extKey sep p k)) r = extKey sep p (k ++ sep ++ r) := by
  cases p with
  | none => rfl
  | some q => simp [extKey, String.append_assoc]

theorem joinPath_cons (sep : String) (k : String) (ks : List String) (h : ks ≠ []) :
    joinPath sep (k :: ks) = k ++ sep ++ joinPath sep ks := by
  cases ks with
  | nil => exact absurd rfl h
  | cons k2 ks2 => rfl

theorem leafAt_ne_nil (kvs : List (String × Json)) (ks : List String) (v : Json)
    (h : LeafAt kvs ks v) : ks ≠ [] := by
  cases h <;> simp

theorem leafAt_mem_flattenList (sep : String) (kvs : List (String × Json))
    (ks : List String) (v : Json) (h : LeafAt kvs ks v) (p : Option String) (d : Nat) :
    (extKey sep p (joinPath sep ks), v) ∈ flattenList sep none kvs p d := by
  induction h generalizing p d with
  | here hm hs => exact mem_flattenList_scalar sep none _ p d _ _ hm hs
  | deeper hm hl ih =>
      rename_i kvs' kvs2 k ks' v'
      have hne := leafAt_ne_nil kvs2 ks' v' hl
      rw [joinPath_cons sep k ks' hne, ← extKey_extKey sep p k (joinPath sep ks')]
      exact mem_flattenList_deeper sep none kvs' kvs2 p d k _ hm rfl (ih _ _)

theorem flattenList_stop (sep : String) (m : Nat) (kvs : List (String × Json))
    (p : Option String) (d : Nat) (h : m ≤ d + 1) :
    flattenList sep (some m) kvs p d =
      kvs.map (fun q => (extKey sep p q.1, cellOf q.2)) := by
  induction kvs with
  | nil => simp [flattenList]
  | cons hd tl ih =>
      obtain ⟨k, v⟩ := hd
      have hcd : canDescend (some m) d = false := by
        simp [canDescend]
        omega
      cases v with
      | obj kvs2 => simp [flattenList, hcd, cellOf, ih]
      | arr xs => simp [flattenList, cellOf, ih]
      | null => simp [flattenList, cellOf, ih]
      | bool b => simp [flattenList, cellOf, ih]
      | num n => simp [flattenList, cellOf, ih]
      | str s => simp [flattenList, cellOf, ih]

theorem flattenList_scalar_id (sep : String) (md : Option Nat)
    (d : Dict) (h : ∀ q ∈ d, (Prod.snd q).isScalar = true) :
    flattenList sep md d none 0 = d := by
  induction d with
  | nil => simp [flattenList]
  | cons hd tl ih =>
      obtain ⟨k, v⟩ := hd
      have hv : v.isScalar = true := h (k, v) (by simp)
      have htl : ∀ q ∈ tl, (Prod.snd q).isScalar = true := fun q hq => h q (by simp [hq])
      cases v with
      | obj kvs2 => simp [Json.isScalar] at hv
      | arr xs => simp [Json.isScalar] at hv
      | null => simp [flattenList, extKey, ih htl]
      | bool b => simp [flattenList, extKey, ih htl]
      | num n => simp [flattenList, extKey, ih htl]
      | str s => simp [flattenList, extKey, ih htl]

/-- C1: for every object and every path, an array value is bound to that
single path as one string (its JSON textual form), never expanded into
per-element columns, regardless of nesting depth or max_depth: the array
binding is a member of the flattened pairs, a lone array key produces
exactly that one binding, every produced cell is non-composite, and in
the flattened dictionary (without path collisions) the path maps to the
serialized string. -/
theorem claim_C1_arrays_one_binding (sep : String) (md : Option Nat) (p : Option String)
    (d : Nat) (kvs : Dict) (k : String) (xs : List Json)
    (hm : (k, Json.arr xs) ∈ kvs) :
    (extKey sep p k, Json.str (serialize (.arr xs))) ∈ flattenList sep md kvs p d
    ∧ flattenList sep md [(k, Json.arr xs)] p d
        = [(extKey sep p k, Json.str (serialize (.arr xs)))]
    ∧ (∀ q ∈ flattenList sep md kvs p d, (Prod.snd q).isScalar = true)
    ∧ (((flattenList sep md kvs none 0).map Prod.fst).Nodup →
        ∀ fr, flatten_json sep md (.obj kvs) = some fr →
          dlookup fr k = some (.str (serialize (.arr xs)))) := by
  refine ⟨mem_flattenList_arr sep md kvs p d k xs hm, by simp [flattenList],
    fun q hq => flattenList_cells_scalar sep md kvs p d q hq, ?_⟩
  intro hnodup fr hfr
  simp [flatten_json] at hfr
  rw [← hfr, toDict_eq_self_of_nodup _ hnodup]
  exact dlookup_eq_some_of_mem_nodup _ _ _ (by simpa [dkeys] using hnodup)
    (by simpa [extKey] using mem_flattenList_arr sep md kvs none 0 k xs hm)

theorem claim_C1_witness :
    (("hobbies", Json.arr [Json.str "reading", Json.str "gaming"]) ∈
      ([("name", Json.str "John"), ("hobbies", Json.arr [Json.str "reading", Json.str "gaming"])] : Dict))
    ∧ (("hobbies", Json.str "[\"reading\", \"gaming\"]") ∈
        flattenList "." none
          [("name", Json.str "John"), ("hobbies", Json.arr [Json.str "reading", Json.str "gaming"])]
          none 0) := by
  have hm : ("hobbies", Json.arr [Json.str "reading", Json.str "gaming"]) ∈
      ([("name", Json.str "John"), ("hobbies", Json.arr [Json.str "reading", Json.str "gaming"])] : Dict) := by
    simp
  have h := (claim_C1_arrays_one_binding "." none none 0
    [("name", Json.str "John"), ("hobbies", Json.arr [Json.str "reading", Json.str "gaming"])]
    "hobbies" [Json.str "reading", Json.str "gaming"] hm).1
  have hs : serialize (Json.arr [Json.str "reading", Json.str "gaming"]) =
      "[\"reading\", \"gaming\"]" := by
    simp [serialize]
    rfl
  rw [hs] at h
  exact ⟨hm, h⟩

/-- C2: flatten of an object with a nested object, with a custom
separator, binds each scalar leaf to the chain of its keys joined by the
separator, preserving the leaf value; in particular
flatten(a/b:1, separator = underscore) is exactly the a_b:1 mapping. -/
theorem claim_C2_leaf_paths (sep : String) (kvs : Dict) (ks : List String) (v : Json)
    (hleaf : LeafAt kvs ks v)
    (hnodup : ((flattenList sep none kvs none 0).map Prod.fst).Nodup) :
    flatten_json "_" none (.obj [("a", .obj [("b", .num 1)])]) = some [("a_b", .num 1)]
    ∧ ∀ fr, flatten_json sep none (.obj kvs) = some fr →
        dlookup fr (joinPath sep ks) = some v := by
  constructor
  · simp [flatten_json, flattenList, canDescend, extKey, serialize, toDict, toDictAux, dinsert]
  · intro fr hfr
    simp [flatten_json] at hfr
    rw [← hfr, toDict_eq_self_of_nodup _ hnodup]
    exact dlookup_eq_some_of_mem_nodup _ _ _ (by simpa [dkeys] using hnodup)
      (by simpa [extKey] using leafAt_mem_flattenList sep kvs ks v hleaf none 0)

theorem claim_C2_witness :
    LeafAt [("a", Json.obj [("b", Json.num 1)])] ["a", "b"] (Json.num 1)
    ∧ dlookup [("a_b", Json.num 1)] (joinPath "_" ["a", "b"]) = some (Json.num 1) := by
  have hleaf : LeafAt [("a", Json.obj [("b", Json.num 1)])] ["a", "b"] (Json.num 1) :=
    @LeafAt.deeper [("a", Json.obj [("b", Json.num 1)])] [("b", Json.num 1)] "a" ["b"]
      (Json.num 1) (by simp)
      (@LeafAt.here [("b", Json.num 1)] "b" (Json.num 1) (by simp) rfl)
  refine ⟨hleaf, ?_⟩
  have h := (claim_C2_leaf_paths "_" [("a", Json.obj [("b", Json.num 1)])] ["a", "b"]
      (Json.num 1) hleaf (by simp [flattenList, canDescend, extKey])).2
  exact h [("a_b", Json.num 1)]
    (by simp [flatten_json, flattenList, canDescend, extKey, toDict, toDictAux, dinsert])

/-- C3: flatten of the four-level object with max_depth = 2 contains the
key "level1.level2" bound to the serialized remaining sub-object and
does not contain "level1.level2.level3.level4"; in general, once the
depth limit is reached the flattener stops descending and binds each
key's value directly (composites serialized). -/
theorem claim_C3_max_depth (sep : String) (m : Nat) (kvs : Dict) (p : Option String)
    (d : Nat) (h : m ≤ d + 1) :
    (∃ fr, flatten_json "." (some 2)
        (.obj [("level1", .obj [("level2", .obj [("level3", .obj [("level4", .str "deep")])])])])
        = some fr
      ∧ "level1.level2" ∈ dkeys fr
      ∧ "level1.level2.level3.level4" ∉ dkeys fr
      ∧ dlookup fr "level1.level2"
          = some (.str (serialize (.obj [("level3", Json.obj [("level4", Json.str "deep")])]))))
    ∧ flattenList sep (some m) kvs p d = kvs.map (fun q => (extKey sep p q.1, cellOf q.2)) := by
  refine ⟨⟨[("level1.level2", .str "\x7b\"level3\": \x7b\"level4\": \"deep\"\x7d\x7d")],
    ?_, ?_, ?_, ?_⟩, flattenList_stop sep m kvs p d h⟩
  · simp [flatten_json, flattenList, canDescend, extKey, serialize, toDict, toDictAux, dinsert]
    rfl
  · simp [dkeys]
  · simp [dkeys]
  · have hs : serialize (Json.obj [("level3", Json.obj [("level4", Json.str "deep")])]) =
        "\x7b\"level3\": \x7b\"level4\": \"deep\"\x7d\x7d" := by
      simp [serialize]
      rfl
    simp [dlookup, hs]

theorem claim_C3_witness :
    (2 : Nat) ≤ 1 + 1
    ∧ flattenList "." (some 2)
        [("x", Json.obj [("y", Json.num 5)]), ("z", Json.num 7)] (some "level1") 1
      = [("x", Json.obj [("y", Json.num 5)]), ("z", Json.num 7)].map
          (fun q => (extKey "." (some "level1") q.1, cellOf q.2)) :=
  ⟨by decide, (claim_C3_max_depth "." 2
    [("x", Json.obj [("y", Json.num 5)]), ("z", Json.num 7)] (some "level1") 1 (by decide)).2⟩

/-- C9: flatten is idempotent: every cell of the flattened output is
non-composite, flattening the output again returns it unchanged, and
flatten is the identity on any mapping whose values are all scalars. -/
theorem claim_C9_idempotent (sep : String) (md : Option Nat) (kvs : Dict) (fr : Dict)
    (hfr : flatten_json sep md (.obj kvs) = some fr) :
    (∀ q ∈ fr, (Prod.snd q).isScalar = true)
    ∧ flatten_json sep md (.obj fr) = some fr
    ∧ ∀ d2 : Dict, (dkeys d2).Nodup → (∀ q ∈ d2, (Prod.snd q).isScalar = true) →
        flatten_json sep md (.obj d2) = some d2 := by
  have hid : ∀ d2 : Dict, (dkeys d2).Nodup → (∀ q ∈ d2, (Prod.snd q).isScalar = true) →
      flatten_json sep md (.obj d2) = some d2 := by
    intro d2 hn hs
    simp [flatten_json, flattenList_scalar_id sep md d2 hs,
      toDict_eq_self_of_nodup _ (by simpa [dkeys] using hn)]
  simp [flatten_json] at hfr
  have hscalar : ∀ q ∈ fr, (Prod.snd q).isScalar = true := by
    intro q hq
    rw [← hfr] at hq
    rcases mem_toDictAux [] _ _ hq with h | h
    · simp at h
    · exact flattenList_cells_scalar sep md kvs none 0 q h
  have hnodup : (dkeys fr).Nodup := by
    rw [← hfr]
    exact dkeys_toDictAux_nodup [] _ (by simp [dkeys])
  exact ⟨hscalar, hid fr hnodup hscalar, hid⟩

theorem claim_C9_witness :
    flatten_json "." none (.obj [("a", Json.obj [("b", Json.num 1)])]) = some [("a.b", Json.num 1)]
    ∧ flatten_json "." none (.obj [("a.b", Json.num 1)]) = some [("a.b", Json.num 1)] := by
  have hfr : flatten_json "." none (.obj [("a", Json.obj [("b", Json.num 1)])])
      = some [("a.b", Json.num 1)] := by
    simp [flatten_json, flattenList, canDescend, extKey, toDict, toDictAux, dinsert]
  exact ⟨hfr, (claim_C9_idempotent "." none _ _ hfr).2.1⟩

/-- C4: validate fails with an error mentioning "cannot be empty" on an
empty sequence, mentioning "must be a list" on a non-sequence input
(e.g. a single mapping), mentioning "must be dictionaries" on a
sequence containing a non-mapping element; and on every non-empty
sequence of mappings (default, non-strict mode) it returns true. -/
theorem claim_C4_validation_errors :
    (∀ strict : Bool, ∃ m, validate_data (.arr []) strict = .error m
        ∧ mentions m "cannot be empty" = true)
    ∧ (∀ (j : Json) (strict : Bool), j.isObj = true →
        ∃ m, validate_data j strict = .error m ∧ mentions m "must be a list" = true)
    ∧ (∀ (items : List Json) (strict : Bool) (x : Json), x ∈ items → x.isObj = false →
        ∃ m, validate_data (.arr items) strict = .error m
          ∧ mentions m "must be dictionaries" = true)
    ∧ (∀ items : List Json, items ≠ [] → (∀ x ∈ items, x.isObj = true) →
        validate_data (.arr items) false = .ok true) := by
  refine ⟨fun strict => ⟨"Data cannot be empty", rfl, by decide⟩, ?_, ?_, ?_⟩
  · intro j strict hj
    cases j with
    | obj kvs => exact ⟨"Data must be a list of dictionaries", rfl, by decide⟩
    | null => simp [Json.isObj] at hj
    | bool b => simp [Json.isObj] at hj
    | num n => simp [Json.isObj] at hj
    | str s => simp [Json.isObj] at hj
    | arr xs => simp [Json.isObj] at hj
  · intro items strict x hx hobj
    have hisEmpty : items.isEmpty = false := by
      rw [List.isEmpty_eq_false]
      intro he
      subst he
      simp at hx
    have hany : (items.any fun y => !y.isObj) = true :=
      List.any_eq_true.mpr ⟨x, hx, by simp [hobj]⟩
    exact ⟨"All items in data must be dictionaries",
      by simp [validate_data, hisEmpty, hany], by decide⟩
  · intro items hne hall
    have hisEmpty : items.isEmpty = false := List.isEmpty_eq_false.mpr hne
    have hany : (items.any fun y => !y.isObj) = false := by
      rw [List.any_eq_false]
      intro x hx
      simp [hall x hx]
    simp [validate_data, hisEmpty, hany]

theorem claim_C4_witness :
    (∃ m, validate_data (.arr []) false = .error m ∧ mentions m "cannot be empty" = true)
    ∧ (∃ m, validate_data (.obj [("x", Json.num 1)]) false = .error m
        ∧ mentions m "must be a list" = true)
    ∧ (∃ m, validate_data (.arr [Json.str "x"]) false = .error m
        ∧ mentions m "must be dictionaries" = true)
    ∧ validate_data (.arr [Json.obj [("a", Json.num 1)]]) false = .ok true :=
  ⟨claim_C4_validation_errors.1 false,
    claim_C4_validation_errors.2.1 (.obj [("x", Json.num 1)]) false rfl,
    claim_C4_validation_errors.2.2.1 [Json.str "x"] false (Json.str "x") (by simp) rfl,
    claim_C4_validation_errors.2.2.2 [Json.obj [("a", Json.num 1)]] (by simp)
      (by simp [Json.isObj])⟩

/-- C5: on a non-empty sequence of mappings, validate in strict mode
fails with an error mentioning "different keys" exactly when some
record's top-level key set differs from the first record's key set
(only top-level key sets are compared), and the same input in
non-strict mode succeeds. -/
theorem claim_C5_strict_keys (first : Json) (rest : List Json)
    (hall : ∀ x ∈ first :: rest, x.isObj = true) :
    ((∃ m, validate_data (.arr (first :: rest)) true = .error m
        ∧ mentions m "different keys" = true)
      ↔ ∃ r ∈ rest, sameKeySet (objKeys r) (objKeys first) = false)
    ∧ validate_data (.arr (first :: rest)) false = .ok true := by
  have hany : ((first :: rest).any fun y => !y.isObj) = false := by
    rw [List.any_eq_false]
    intro x hx
    simp [hall x hx]
  constructor
  · constructor
    · rintro ⟨m, hm, hmen⟩
      by_cases hneq : (rest.any fun r => !sameKeySet (objKeys r) (objKeys first)) = true
      · rcases List.any_eq_true.mp hneq with ⟨r, hr, hb⟩
        exact ⟨r, hr, by simpa using hb⟩
      · simp [validate_data, hany, hneq] at hm
    · rintro ⟨r, hr, hb⟩
      have hneq : (rest.any fun r => !sameKeySet (objKeys r) (objKeys first)) = true :=
        List.any_eq_true.mpr ⟨r, hr, by simp [hb]⟩
      exact ⟨"Records have different keys",
        by simp [validate_data, hany, hneq], by decide⟩
  · simp [validate_data, hany]

theorem claim_C5_witness :
    (∃ m, validate_data
        (.arr [Json.obj [("a", Json.num 1)], Json.obj [("a", Json.num 2), ("b", Json.num 3)]])
        true = .error m ∧ mentions m "different keys" = true)
    ∧ validate_data
        (.arr [Json.obj [("a", Json.num 1)], Json.obj [("a", Json.num 2), ("b", Json.num 3)]])
        false = .ok true := by
  have h := claim_C5_strict_keys (Json.obj [("a", Json.num 1)])
    [Json.obj [("a", Json.num 2), ("b", Json.num 3)]] (by simp [Json.isObj])
  exact ⟨h.1.mpr ⟨Json.obj [("a", Json.num 2), ("b", Json.num 3)], by simp, by decide⟩, h.2⟩


/-! Helper lemmas about pickBest. -/

theorem pickBest_cons (best q : Char × Nat) (rest : List (Char × Nat)) :
    pickBest best (q :: rest) = pickBest (if best.2 < q.2 then q else best) rest := rfl

theorem pickBest_val (ps : List (Char × Nat)) (best : Char × Nat) :
    best.2 ≤ (pickBest best ps).2 ∧ ∀ q ∈ ps, q.2 ≤ (pickBest best ps).2 := by
  induction ps generalizing best with
  | nil => exact ⟨le_rfl, by simp⟩
  | cons q rest ih =>
      rw [pickBest_cons]
      by_cases hlt : best.2 < q.2
      · rw [if_pos hlt]
        have h := ih q
        refine ⟨le_of_lt (lt_of_lt_of_le hlt h.1), ?_⟩
        intro x hx
        rcases List.mem_cons.mp hx with hx | hx
        · rw [hx]
          exact h.1
        · exact h.2 x hx
      · rw [if_neg hlt]
        have h := ih best
        refine ⟨h.1, ?_⟩
        intro x hx
        rcases List.mem_cons.mp hx with hx | hx
        · rw [hx]
          exact le_trans (Nat.le_of_not_lt hlt) h.1
        · exact h.2 x hx

theorem pickBest_mem (ps : List (Char × Nat)) (best : Char × Nat) :
    pickBest best ps = best ∨ pickBest best ps ∈ ps := by
  induction ps generalizing best with
  | nil => left; rfl
  | cons q rest ih =>
      rw [pickBest_cons]
      by_cases hlt : best.2 < q.2
      · rw [if_pos hlt]
        rcases ih q with h | h
        · right
          rw [h]
          simp
        · right
          exact List.mem_cons_of_mem q h
      · rw [if_neg hlt]
        rcases ih best with h | h
        · left
          exact h
        · right
          exact List.mem_cons_of_mem q h

theorem pickBest_split (ps : List (Char × Nat)) (best : Char × Nat) :
    ∃ l1 l2, best :: ps = l1 ++ (pickBest best ps) :: l2
      ∧ ∀ q ∈ l1, q.2 < (pickBest best ps).2 := by
  induction ps generalizing best with
  | nil => exact ⟨[], [], by simp [pickBest], by simp⟩
  | cons q rest ih =>
      by_cases hlt : best.2 < q.2
      · obtain ⟨l1, l2, he, h1⟩ := ih q
        refine ⟨best :: l1, l2, ?_, ?_⟩
        · rw [pickBest_cons, if_pos hlt, List.cons_append]
          exact congrArg (List.cons best) he
        · intro x hx
          rw [pickBest_cons, if_pos hlt]
          rcases List.mem_cons.mp hx with hx | hx
          · rw [hx]
            exact lt_of_lt_of_le hlt (pickBest_val rest q).1
          · exact h1 x hx
      · obtain ⟨l1, l2, he, h1⟩ := ih best
        cases l1 with
        | nil =>
            have he2 : best = pickBest best rest ∧ rest = l2 := by simpa using he
            refine ⟨[], q :: rest, ?_, by simp⟩
            rw [pickBest_cons, if_neg hlt, ← he2.1]
            simp
        | cons a l1' =>
            have he2 : best = a ∧ rest = l1' ++ pickBest best rest :: l2 := by
              simpa using he
            refine ⟨best :: q :: l1', l2, ?_, ?_⟩
            · rw [pickBest_cons, if_neg hlt]
              conv_lhs => rw [he2.2]
              simp
            · intro x hx
              have hb : best.2 < (pickBest best rest).2 := by
                have ha := h1 a (by simp)
                rwa [← he2.1] at ha
              rw [pickBest_cons, if_neg hlt]
              rcases List.mem_cons.mp hx with hx | hx
              · rw [hx]
                exact hb
              · rcases List.mem_cons.mp hx with hx | hx
                · rw [hx]
                  exact lt_of_le_of_lt (Nat.le_of_not_lt hlt) hb
                · exact h1 x (by simp [hx])

/-- C8: detect_delimiter returns the candidate with the highest
occurrence count in the first line of the sample, ties broken in favor
of the earliest candidate in the list (all candidates before the result
have strictly smaller counts, all candidates after it have no larger
counts), and an empty sample returns the comma default. -/
theorem claim_C8_detect_delimiter (s : String) (c0 : Char) (rest : List Char)
    (hne : s.isEmpty = false) :
    (∀ cands : List Char, detect_delimiter "" cands = ',')
    ∧ ∃ l1 l2, c0 :: rest = l1 ++ detect_delimiter s (c0 :: rest) :: l2
        ∧ (∀ c ∈ l1,
            (firstLine s).count c < (firstLine s).count (detect_delimiter s (c0 :: rest)))
        ∧ (∀ c ∈ l2,
            (firstLine s).count c ≤ (firstLine s).count (detect_delimiter s (c0 :: rest))) := by
  refine ⟨fun cands => rfl, ?_⟩
  have hdet : detect_delimiter s (c0 :: rest)
      = (pickBest (c0, (firstLine s).count c0)
          (rest.map (fun c => (c, (firstLine s).count c)))).1 := by
    simp [detect_delimiter, hne]
  have hshape : ∀ q ∈ (c0, (firstLine s).count c0)
        :: rest.map (fun c => (c, (firstLine s).count c)),
      q.2 = (firstLine s).count q.1 := by
    intro q hq
    rcases List.mem_cons.mp hq with hq | hq
    · rw [hq]
    · rcases List.mem_map.mp hq with ⟨c, hc, hce⟩
      rw [← hce]
  have hrmem : pickBest (c0, (firstLine s).count c0)
        (rest.map (fun c => (c, (firstLine s).count c)))
      ∈ (c0, (firstLine s).count c0) :: rest.map (fun c => (c, (firstLine s).count c)) := by
    rcases pickBest_mem (rest.map (fun c => (c, (firstLine s).count c)))
        (c0, (firstLine s).count c0) with h | h
    · rw [h]
      simp
    · exact List.mem_cons_of_mem _ h
  have hrval := hshape _ hrmem
  obtain ⟨l1, l2, he, h1⟩ := pickBest_split (rest.map (fun c => (c, (firstLine s).count c)))
    (c0, (firstLine s).count c0)
  refine ⟨l1.map Prod.fst, l2.map Prod.fst, ?_, ?_, ?_⟩
  · have hmap := congrArg (List.map Prod.fst) he
    rw [hdet]
    simpa [List.map_map, Function.comp_def] using hmap
  · intro c hc
    rcases List.mem_map.mp hc with ⟨q, hq, hqe⟩
    have hqmem : q ∈ (c0, (firstLine s).count c0)
        :: rest.map (fun c => (c, (firstLine s).count c)) := by
      rw [he]
      exact List.mem_append_left _ hq
    have hlt := h1 q hq
    rw [hshape q hqmem, hqe, hrval] at hlt
    rw [hdet]
    exact hlt
  · intro c hc
    rcases List.mem_map.mp hc with ⟨q, hq, hqe⟩
    have hqmem : q ∈ (c0, (firstLine s).count c0)
        :: rest.map (fun c => (c, (firstLine s).count c)) := by
      rw [he]
      exact List.mem_append_right _ (List.mem_cons_of_mem _ hq)
    have hle : q.2 ≤ (pickBest (c0, (firstLine s).count c0)
        (rest.map (fun c => (c, (firstLine s).count c)))).2 := by
      rcases List.mem_cons.mp hqmem with hx | hx
      · rw [hx]
        exact (pickBest_val (rest.map (fun c => (c, (firstLine s).count c)))
          (c0, (firstLine s).count c0)).1
      · exact (pickBest_val (rest.map (fun c => (c, (firstLine s).count c)))
          (c0, (firstLine s).count c0)).2 q hx
    rw [hshape q hqmem, hqe, hrval] at hle
    rw [hdet]
    exact hle

theorem claim_C8_witness :
    ("name;age;city".isEmpty = false)
    ∧ ∃ l1 l2, [',', ';', '\t', '|']
        = l1 ++ detect_delimiter "name;age;city" [',', ';', '\t', '|'] :: l2
        ∧ (∀ c ∈ l1, (firstLine "name;age;city").count c
            < (firstLine "name;age;city").count
                (detect_delimiter "name;age;city" [',', ';', '\t', '|']))
        ∧ (∀ c ∈ l2, (firstLine "name;age;city").count c
            ≤ (firstLine "name;age;city").count
                (detect_delimiter "name;age;city" [',', ';', '\t', '|'])) :=
  ⟨rfl, (claim_C8_detect_delimiter "name;age;city" ',' [';', '\t', '|'] rfl).2⟩

/-! Helper lemmas about the header union. -/

theorem foldl_headers_flat (frs : List Dict) (acc : List String) :
    frs.foldl (fun a fr => (dkeys fr).foldl insertNew a) acc
      = (frs.flatMap dkeys).foldl insertNew acc := by
  induction frs generalizing acc with
  | nil => simp
  | cons fr rest ih => simp [List.foldl_append, ih]

theorem dedupFirstAux_congr (l : List String) (s1 s2 : List String)
    (h : ∀ x, x ∈ s1 ↔ x ∈ s2) : dedupFirstAux s1 l = dedupFirstAux s2 l := by
  induction l generalizing s1 s2 with
  | nil => rfl
  | cons x rest ih =>
      by_cases hx : x ∈ s1
      · simp [dedupFirstAux, hx, (h x).mp hx, ih s1 s2 h]
      · have hx2 : x ∉ s2 := fun hc => hx ((h x).mpr hc)
        simp [dedupFirstAux, hx, hx2]
        exact ih (x :: s1) (x :: s2) (by intro y; simp [h y])

theorem foldl_insertNew_eq (l : List String) (acc : List String) :
    l.foldl insertNew acc = acc ++ dedupFirstAux acc l := by
  induction l generalizing acc with
  | nil => simp [dedupFirstAux]
  | cons x rest ih =>
      by_cases hx : x ∈ acc
      · simp [insertNew, dedupFirstAux, hx, ih]
      · have h1 : insertNew acc x = acc ++ [x] := by simp [insertNew, hx]
        have h2 : dedupFirstAux acc (x :: rest) = x :: dedupFirstAux (x :: acc) rest := by
          simp [dedupFirstAux, hx]
        rw [List.foldl_cons, h1, ih (acc ++ [x]),
          dedupFirstAux_congr rest (acc ++ [x]) (x :: acc) (by intro y; simp; tauto), h2]
        simp

theorem mem_dedupFirstAux (l : List String) (s : List String) (x : String) :
    x ∈ dedupFirstAux s l ↔ x ∈ l ∧ x ∉ s := by
  induction l generalizing s with
  | nil => simp [dedupFirstAux]
  | cons y rest ih =>
      by_cases hy : y ∈ s
      · rw [dedupFirstAux, if_pos hy, ih]
        constructor
        · exact fun hc => ⟨by simp [hc.1], hc.2⟩
        · rintro ⟨hm, hns⟩
          rcases List.mem_cons.mp hm with hm | hm
          · exact absurd (hm ▸ hy) hns
          · exact ⟨hm, hns⟩
      · rw [dedupFirstAux, if_neg hy]
        constructor
        · intro hc
          rcases List.mem_cons.mp hc with hc | hc
          · exact ⟨by simp [hc], hc ▸ hy⟩
          · have := (ih (y :: s)).mp hc
            exact ⟨by simp [this.1], fun hs => this.2 (by simp [hs])⟩
        · rintro ⟨hm, hns⟩
          rcases List.mem_cons.mp hm with hm | hm
          · simp [hm]
          · by_cases hxy : x = y
            · simp [hxy]
            · exact List.mem_cons_of_mem y
                ((ih (y :: s)).mpr ⟨hm, by simp [hxy, hns]⟩)

theorem nodup_dedupFirstAux (l : List String) (s : List String) :
    (dedupFirstAux s l).Nodup := by
  induction l generalizing s with
  | nil => simp [dedupFirstAux]
  | cons y rest ih =>
      by_cases hy : y ∈ s
      · rw [dedupFirstAux, if_pos hy]
        exact ih s
      · rw [dedupFirstAux, if_neg hy]
        refine List.nodup_cons.mpr ⟨?_, ih (y :: s)⟩
        intro hc
        exact ((mem_dedupFirstAux rest (y :: s) y).mp hc).2 (by simp)

theorem unionHeaders_eq_dedupFirst (frs : List Dict) :
    unionHeaders frs = dedupFirstAux [] (frs.flatMap dkeys) := by
  rw [unionHeaders, foldl_headers_flat, foldl_insertNew_eq]
  simp

/-- C6: the CSV header is the ordered union of all flattened paths in
first-seen order (record-major, then per-record key order): it equals
first-occurrence deduplication of the concatenated key lists, has no
duplicates, contains exactly the paths occurring in some record, the
batch a:1, b:2 yields header [a, b] (not [b, a]), and a record missing
a header path renders the empty string in that column. -/
theorem claim_C6_header_union (frs : List Dict) (fr : Dict) (headers : List String)
    (j : Nat) (h : String) (hj : headers[j]? = some h) (hnone : dlookup fr h = none) :
    unionHeaders [recordFlat defaultOptions [("a", Json.num 1)],
        recordFlat defaultOptions [("b", Json.num 2)]] = ["a", "b"]
    ∧ unionHeaders frs = dedupFirstAux [] (frs.flatMap dkeys)
    ∧ (unionHeaders frs).Nodup
    ∧ (∀ x, x ∈ unionHeaders frs ↔ ∃ fr2 ∈ frs, x ∈ dkeys fr2)
    ∧ (rowCells headers fr)[j]? = some "" := by
  refine ⟨rfl, unionHeaders_eq_dedupFirst frs, ?_, ?_, ?_⟩
  · rw [unionHeaders_eq_dedupFirst]
    exact nodup_dedupFirstAux _ []
  · intro x
    rw [unionHeaders_eq_dedupFirst, mem_dedupFirstAux]
    simp [List.mem_flatMap]
  · rw [rowCells, List.getElem?_map, hj]
    simp [hnone]

theorem claim_C6_witness :
    ((["a", "b"] : List String)[1]? = some "b")
    ∧ dlookup [("a", Json.num 1)] "b" = none
    ∧ (rowCells ["a", "b"] [("a", Json.num 1)])[1]? = some "" :=
  ⟨rfl, rfl,
    (claim_C6_header_union [] [("a", Json.num 1)] ["a", "b"] 1 "b" rfl rfl).2.2.2.2⟩

/-! Helper lemmas for the converter pipeline. -/

theorem validate_ok (items : List Json) (hne : items ≠ [])
    (hall : ∀ x ∈ items, x.isObj = true) :
    validate_data (.arr items) false = .ok true := by
  have hisEmpty : items.isEmpty = false := List.isEmpty_eq_false.mpr hne
  have hany : (items.any fun y => !y.isObj) = false := by
    rw [List.any_eq_false]
    intro x hx
    simp [hall x hx]
  simp [validate_data, hisEmpty, hany]

theorem withIdx_length (i : Nat) (l : List Dict) : (withIdx i l).length = l.length := by
  induction l generalizing i with
  | nil => rfl
  | cons x rest ih => simp [withIdx, ih]

theorem convertLines_length (o : ConvertOptions) (records : List Dict) :
    (convertLines o records).length = records.length + 1 := by
  simp [convertLines, withIdx_length]

/-- C10: for a valid batch of n records (non-empty, all mappings,
non-strict), the conversion succeeds and its CSV text is the join of
exactly n + 1 lines (one header line plus one data row per record, in
input order), and preview with rows = k ≤ n yields exactly k + 1
lines. -/
theorem claim_C10_line_counts (o : ConvertOptions) (items : List Json) (k : Nat)
    (hne : items ≠ []) (hall : ∀ x ∈ items, x.isObj = true)
    (hstrict : o.strict_mode = false) :
    convert_to_csv o (.arr items)
      = .ok (String.intercalate "\n" (convertLines o (items.map objPairs)))
    ∧ (convertLines o (items.map objPairs)).length = items.length + 1
    ∧ (k ≤ items.length →
        preview_conversion o (.arr items) k
          = .ok (String.intercalate "\n" (convertLines o ((items.take k).map objPairs)))
        ∧ (convertLines o ((items.take k).map objPairs)).length = k + 1) := by
  have hval : validate_data (.arr items) o.strict_mode = .ok true := by
    rw [hstrict]
    exact validate_ok items hne hall
  refine ⟨?_, ?_, fun hk => ⟨?_, ?_⟩⟩
  · cases hv : o.validateOpt <;> simp [convert_to_csv, normalizeData, hval, hv]
  · simp [convertLines_length]
  · cases hv : o.validateOpt <;> simp [preview_conversion, normalizeData, hval, hv]
  · simp [convertLines_length]
    omega

theorem claim_C10_witness :
    convert_to_csv defaultOptions (.arr [Json.obj [("n", Json.num 1)], Json.obj [("n", Json.num 2)]])
      = .ok (String.intercalate "\n" (convertLines defaultOptions
          ([Json.obj [("n", Json.num 1)], Json.obj [("n", Json.num 2)]].map objPairs)))
    ∧ (convertLines defaultOptions
        ([Json.obj [("n", Json.num 1)], Json.obj [("n", Json.num 2)]].map objPairs)).length = 2 + 1
    ∧ preview_conversion defaultOptions
        (.arr [Json.obj [("n", Json.num 1)], Json.obj [("n", Json.num 2)]]) 1
      = .ok (String.intercalate "\n" (convertLines defaultOptions
          (([Json.obj [("n", Json.num 1)], Json.obj [("n", Json.num 2)]].take 1).map objPairs)))
    ∧ (convertLines defaultOptions
        (([Json.obj [("n", Json.num 1)], Json.obj [("n", Json.num 2)]].take 1).map objPairs)).length
      = 1 + 1 := by
  have h := claim_C10_line_counts defaultOptions
    [Json.obj [("n", Json.num 1)], Json.obj [("n", Json.num 2)]] 1
    (by simp) (by simp [Json.isObj]) rfl
  exact ⟨h.1, h.2.1, (h.2.2 (by simp)).1, (h.2.2 (by simp)).2⟩

/-! Helper lemmas for CSV quoting and parsing. -/

theorem parseRec_quoted (delim : Char) (cs : List Char) (rest cur : List Char)
    (acc : List String) (hrest : rest.head? ≠ some '"') :
    parseRec delim (doubleQuotes cs ++ '"' :: rest) true cur acc
      = parseRec delim rest false (cur ++ cs) acc := by
  induction cs generalizing cur with
  | nil => simp [doubleQuotes, parseRec, hrest]
  | cons c cs' ih =>
      by_cases hc : c = '"'
      · subst hc
        have hstep : doubleQuotes ('"' :: cs') ++ '"' :: rest
            = '"' :: '"' :: (doubleQuotes cs' ++ '"' :: rest) := by
          simp [doubleQuotes]
        rw [hstep]
        rw [show parseRec delim ('"' :: '"' :: (doubleQuotes cs' ++ '"' :: rest)) true cur acc
            = parseRec delim (doubleQuotes cs' ++ '"' :: rest) true (cur ++ ['"']) acc from by
          simp [parseRec]]
        rw [ih (cur ++ ['"'])]
        simp
      · have hstep : doubleQuotes (c :: cs') ++ '"' :: rest
            = c :: (doubleQuotes cs' ++ '"' :: rest) := by
          simp [doubleQuotes, hc]
        rw [hstep]
        rw [show parseRec delim (c :: (doubleQuotes cs' ++ '"' :: rest)) true cur acc
            = parseRec delim (doubleQuotes cs' ++ '"' :: rest) true (cur ++ [c]) acc from by
          simp [parseRec, hc]]
        rw [ih (cur ++ [c])]
        simp

theorem parseRec_unquoted (delim : Char) (cs : List Char) (rest cur : List Char)
    (acc : List String) (hne : ∀ c ∈ cs, c ≠ delim ∧ c ≠ '"') :
    parseRec delim (cs ++ rest) false cur acc = parseRec delim rest false (cur ++ cs) acc := by
  induction cs generalizing cur with
  | nil => simp
  | cons c cs' ih =>
      have hc := hne c (by simp)
      rw [List.cons_append]
      rw [show parseRec delim (c :: (cs' ++ rest)) false cur acc
          = parseRec delim (cs' ++ rest) false (cur ++ [c]) acc from by
        simp [parseRec, hc.1, hc.2]]
      rw [ih (cur ++ [c]) (fun x hx => hne x (by simp [hx]))]
      simp

theorem parseRec_escField (delim : Char) (s rest : List Char) (acc : List String)
    (hd : delim ≠ '"') (hrest : rest.head? ≠ some '"') :
    parseRec delim (escChars delim s ++ rest) false [] acc
      = parseRec delim rest false s acc := by
  by_cases hq : needsQuote delim s = true
  · rw [escChars, if_pos hq]
    have hshape : ('"' :: (doubleQuotes s ++ ['"'])) ++ rest
        = '"' :: (doubleQuotes s ++ '"' :: rest) := by
      simp
    rw [hshape]
    have hdq : ¬('"' = delim) := fun h => hd h.symm
    rw [show parseRec delim ('"' :: (doubleQuotes s ++ '"' :: rest)) false [] acc
        = parseRec delim (doubleQuotes s ++ '"' :: rest) true [] acc from by
      simp [parseRec, hdq]]
    rw [parseRec_quoted delim s rest [] acc hrest]
    simp
  · rw [escChars, if_neg hq]
    have hne : ∀ c ∈ s, c ≠ delim ∧ c ≠ '"' := by
      intro c hc
      rw [needsQuote] at hq
      rw [Bool.not_eq_true, List.any_eq_false] at hq
      have hpc := hq c hc
      simp at hpc
      exact ⟨hpc.1.1, hpc.1.2⟩
    rw [parseRec_unquoted delim s rest [] acc hne]
    simp

theorem parseRec_line (delim : Char) (cd : List Char) (cells : List (List Char))
    (acc : List String) (hd : delim ≠ '"') :
    parseRec delim (lineChars delim (cd :: cells)) false [] acc
      = acc ++ (cd :: cells).map (fun l => (⟨l⟩ : String)) := by
  induction cells generalizing cd acc with
  | nil =>
      have h := parseRec_escField delim cd [] acc hd (by simp)
      rw [List.append_nil] at h
      rw [show lineChars delim [cd] = escChars delim cd from rfl, h]
      simp [parseRec]
  | cons c2 cells' ih =>
      rw [show lineChars delim (cd :: c2 :: cells')
          = escChars delim cd ++ delim :: lineChars delim (c2 :: cells') from rfl]
      rw [parseRec_escField delim cd (delim :: lineChars delim (c2 :: cells')) acc hd
        (by simpa using hd)]
      rw [show parseRec delim (delim :: lineChars delim (c2 :: cells')) false cd acc
          = parseRec delim (lineChars delim (c2 :: cells')) false [] (acc ++ [(⟨cd⟩ : String)])
          from by simp [parseRec]]
      rw [ih c2 (acc ++ [(⟨cd⟩ : String)])]
      simp

/-- C7: every rendered field whose text contains the delimiter, a
double-quote or a newline is emitted wrapped in double-quotes with
embedded double-quotes doubled, every other field is emitted as-is, and
parsing a rendered line with a standard CSV field scanner recovers the
original cell texts exactly; concretely, converting the record
a : "x,y" yields the quoted cell in the CSV output. -/
theorem claim_C7_csv_quoting (delim : Char) (cells : List String) (s : String)
    (hd : delim ≠ '"') (hne : cells ≠ []) :
    (needsQuote delim s.data = true →
        escapeField delim s = ⟨'"' :: (doubleQuotes s.data ++ ['"'])⟩)
    ∧ (needsQuote delim s.data = false → escapeField delim s = s)
    ∧ parseCSVLine delim (renderLine delim cells) = cells
    ∧ convert_to_csv defaultOptions (.arr [Json.obj [("a", Json.str "x,y")]])
        = .ok "a\n\"x,y\"" := by
  refine ⟨?_, ?_, ?_, ?_⟩
  · intro h
    simp [escapeField, escChars, h]
  · intro h
    simp [escapeField, escChars, h]
  · cases cells with
    | nil => exact absurd rfl hne
    | cons c cs =>
        rw [parseCSVLine, renderLine]
        rw [show (⟨lineChars delim ((c :: cs).map String.data)⟩ : String).data
            = lineChars delim ((c :: cs).map String.data) from rfl]
        rw [show (c :: cs).map String.data = c.data :: cs.map String.data from rfl]
        rw [parseRec_line delim c.data (cs.map String.data) [] hd]
        simp [List.map_map, Function.comp_def]
  · rfl

theorem claim_C7_witness :
    (',' ≠ '"')
    ∧ (["x,y", "plain"] : List String) ≠ []
    ∧ parseCSVLine ',' (renderLine ',' ["x,y", "plain"]) = ["x,y", "plain"] := by
  have h := claim_C7_csv_quoting ',' ["x,y", "plain"] "x,y" (by decide) (by simp)
  exact ⟨by decide, by simp, h.2.2.1⟩
